import Mathlib

/-!
Verification of the arc-length parameterization engine of
`src/ezdxf/math/polyline.py`: `ConstructionPolyline` and `ApproxParamT`.

Modelling conventions:
* Python floats are idealized as rationals (`ℚ`); all claims under scrutiny
  are exact algebraic statements about the algorithms, not about rounding.
* The spec (section 1) declares vector/point arithmetic (`Vec3`), together
  with `linspace` and `bisect`, to be external collaborators of this core.
  `Vec3` is not part of the sources, so vector primitives are abstracted
  into a `VecLib` record carrying exactly the algebraic facts the polyline
  code relies on; a concrete rational instance is provided for witnesses.
* Python `while` loops are translated as fuel-based structural recursions;
  the fuel passed at each call site provably dominates the iteration count,
  so the translation computes the same list as the unbounded loop.
* Fallible operations (`raise ValueError` / `raise ArithmeticError` /
  `IndexError` from list subscripts) return `Except PyErr`.
-/

set_option maxHeartbeats 1000000

deriving instance DecidableEq for Except

/- Batteries marks the rational field operations irreducible, which blocks
evaluation of concrete scenarios by `decide`; restore semireducibility
locally (the kernel is oblivious to reducibility attributes anyway). -/
attribute [local semireducible] Rat.mul Rat.add Rat.inv Rat.sub

namespace Polyline

/-- Translation of the module constant `REL_TOL = 1e-9`. -/
def REL_TOL : ℚ := 1 / 1000000000

/-- The literal threshold `1e-12` used by `ApproxParamT.param_t` and, as the
default `abs_tol`, by `Vec3.isclose`. -/
def EPS12 : ℚ := 1 / 1000000000000

/-- Vector primitive library. The spec (section 1) treats point arithmetic
(subtraction, magnitude, linear interpolation, `isclose`) as an external,
already-correct geometry package; `Vec3` itself is not among the sources.
The record carries the operations `polyline.py` calls plus the two facts it
relies on: magnitudes are non-negative and `isclose` is reflexive. -/
structure VecLib (V : Type) where
  magnitude : V → ℚ
  sub : V → V → V
  lerp : V → V → ℚ → V
  isclose : V → V → ℚ → Bool
  nullvec : V
  magnitude_nonneg : ∀ v, 0 ≤ magnitude v
  isclose_refl : ∀ v tol, isclose v v tol = true

/-- Failure taxonomy (spec section 7) of the translated operations. -/
inductive PyErr : Type
  | outOfRange
  | insufficientVertices
  | invalidArgument
  | internalInconsistency
  | indexError
  deriving DecidableEq, Repr

variable {V : Type}

/-- Loop of the module helper `_distances`, for the vertices after the first
one: `prev` is the previous vertex, `station` the running distance. -/
def distancesFrom (L : VecLib V) : V → ℚ → List V → List ℚ
  | _, _, [] => []
  | prev, station, v :: rest =>
      (station + L.magnitude (L.sub v prev)) ::
        distancesFrom L v (station + L.magnitude (L.sub v prev)) rest

/-- Translation of the module helper `_distances`: cumulative distance from
the start vertex to each vertex; the first entry is always `0`. -/
def listDistances (L : VecLib V) : List V → List ℚ
  | [] => []
  | v :: rest => 0 :: distancesFrom L v 0 rest

/-- The state of a `ConstructionPolyline` after `__init__`: the relative
tolerance, the (possibly closed) vertex list and the parallel cumulative
distance list. -/
structure ConstructionPolyline (V : Type) where
  rel_tol : ℚ
  vertices : List V
  dists : List ℚ
  deriving DecidableEq

/-- Translation of `ConstructionPolyline.__init__`: if `close` is set, the
vertex list has more than 2 entries and first and last vertex are not
already close, the first vertex is appended; then the cumulative distances
are computed. -/
def mkPolyline (L : VecLib V) (vertices : List V) (close : Bool) (rel_tol : ℚ) :
    ConstructionPolyline V :=
  let v3list : List V :=
    match vertices with
    | [] => []
    | v0 :: rest =>
        if close = true ∧ 2 < (v0 :: rest).length then
          if L.isclose v0 (rest.getLastD v0) rel_tol then v0 :: rest
          else (v0 :: rest) ++ [v0]
        else v0 :: rest
  { rel_tol := rel_tol, vertices := v3list, dists := listDistances L v3list }

/-- Translation of the property `ConstructionPolyline.length`:
`distances[-1]` if the distance list is non-empty, else `0.0`. -/
def ConstructionPolyline.length (p : ConstructionPolyline V) : ℚ :=
  p.dists.getLastD 0

/-- Translation of the property `ConstructionPolyline.is_closed`: true iff
there are more than 2 vertices and first and last vertex are close. -/
def ConstructionPolyline.is_closed (L : VecLib V) (p : ConstructionPolyline V) : Bool :=
  match p.vertices with
  | [] => false
  | v0 :: rest =>
      if 2 < (v0 :: rest).length then L.isclose v0 (rest.getLastD v0) p.rel_tol
      else false

/-- Translation of `ConstructionPolyline.data`: `(distance from start,
distance from previous vertex, vertex)`.  `none` models the `ValueError`
on an empty polyline and the `IndexError` of an out-of-range subscript. -/
def ConstructionPolyline.data (p : ConstructionPolyline V) (index : ℕ) :
    Option (ℚ × ℚ × V) :=
  match p.vertices.get? 0 with
  | none => none
  | some v0 =>
      if index = 0 then some (0, 0, v0)
      else
        match p.dists.get? (index - 1), p.dists.get? index, p.vertices.get? index with
        | some pd, some cd, some v => some (cd, cd - pd, v)
        | _, _, _ => none

/-- Fuel-based translation of the loop of Python's `bisect.bisect_left`
(the stdlib routine called by `ConstructionPolyline._index_at`); `fuel`
bounds the iteration count and at every call site below it dominates the
true iteration count `hi - lo`, which halves each round. -/
def bisectLeftAux (a : List ℚ) (x : ℚ) : ℕ → ℕ → ℕ → ℕ
  | 0, lo, _ => lo
  | fuel + 1, lo, hi =>
      if lo < hi then
        if a.getD ((lo + hi) / 2) 0 < x then bisectLeftAux a x fuel ((lo + hi) / 2 + 1) hi
        else bisectLeftAux a x fuel lo ((lo + hi) / 2)
      else lo

/-- Python's `bisect.bisect_left(a, x)` with the default bounds. -/
def bisectLeft (a : List ℚ) (x : ℚ) : ℕ :=
  bisectLeftAux a x a.length 0 a.length

/-- Translation of `ConstructionPolyline._index_at`: the raw lower-bound
binary search without any clamping. -/
def ConstructionPolyline.indexAtFast (p : ConstructionPolyline V) (distance : ℚ) : ℕ :=
  bisectLeft p.dists distance

/-- Translation of `ConstructionPolyline.index_at`: clamped data index of
the exact or next data entry for the given distance. -/
def ConstructionPolyline.index_at (p : ConstructionPolyline V) (distance : ℚ) : ℕ :=
  if distance ≤ 0 then 0
  else if p.length ≤ distance then max 0 (p.vertices.length - 1)
  else p.indexAtFast distance

/-- The backward walk of `ConstructionPolyline._vertex_at` that skips
coincident vertices: starting from the given `index0`, decrement while the
index is positive and `distances[index0] == distance1`. -/
def skipCoincident (dists : List ℚ) (distance1 : ℚ) : ℕ → ℕ
  | 0 => 0
  | i + 1 =>
      if dists.getD (i + 1) 0 = distance1 then skipCoincident dists distance1 i
      else i + 1

/-- Translation of `ConstructionPolyline._vertex_at` (the fast interpolation
without range checks).  `.error .indexError` models the `IndexError` a
Python list subscript would raise; `.error .internalInconsistency` is the
`ArithmeticError("internal interpolation error")` branch. -/
def ConstructionPolyline.vertexAtFast (L : VecLib V) (p : ConstructionPolyline V)
    (distance : ℚ) : Except PyErr V :=
  let index1 := p.indexAtFast distance
  if index1 = 0 then
    match p.vertices.get? 0 with
    | some v => .ok v
    | none => .error .indexError
  else
    match p.dists.get? index1 with
    | none => .error .indexError
    | some distance1 =>
        let index0 := skipCoincident p.dists distance1 (index1 - 1)
        let distance0 := p.dists.getD index0 0
        if distance0 = distance1 then .error .internalInconsistency
        else
          match p.vertices.get? index0, p.vertices.get? index1 with
          | some a, some b =>
              .ok (L.lerp a b ((distance - distance0) / (distance1 - distance0)))
          | _, _ => .error .indexError

/-- Translation of `ConstructionPolyline.vertex_at` (the spec's `point_at`):
interpolated vertex at the given distance from the start. -/
def ConstructionPolyline.vertex_at (L : VecLib V) (p : ConstructionPolyline V)
    (distance : ℚ) : Except PyErr V :=
  if distance < 0 ∨ p.length < distance then .error .outOfRange
  else if p.vertices.length < 2 then .error .insufficientVertices
  else p.vertexAtFast L distance

/-- Modelled from the spec: `ezdxf.math.linspace` (not among the sources) —
`num` evenly spaced values from `start` to `stop`, inclusive of both ends. -/
def linspace (start stop : ℚ) (num : ℕ) : List ℚ :=
  if num = 0 then []
  else if num = 1 then [start]
  else (List.range num).map fun i : ℕ =>
    start + (stop - start) * (i : ℚ) / ((num : ℚ) - 1)

/-- Translation of `ConstructionPolyline.divide`: `count` interpolated
vertices at evenly spaced distances over the whole polyline. -/
def ConstructionPolyline.divide (L : VecLib V) (p : ConstructionPolyline V)
    (count : ℕ) : Except PyErr (List V) :=
  if count < 2 then .error .invalidArgument
  else (linspace 0 p.length count).mapM fun d => p.vertexAtFast L d

/-- Fuel-based translation of the `while distance <= total_length` loop of
`divide_by_length`, collecting the stepped distances; the fuel passed at
the call site dominates the iteration count. -/
def stepLoop (step total : ℚ) : ℕ → ℚ → List ℚ
  | 0, _ => []
  | fuel + 1, d => if d ≤ total then d :: stepLoop step total fuel (d + step) else []

/-- Translation of `ConstructionPolyline.divide_by_length`: interpolated
vertices with a fixed distance `step` between neighbors; `force_last`
additionally yields the final vertex when the last stepped vertex is not
close to it (Python compares with the default tolerance `1e-9`). -/
def ConstructionPolyline.divide_by_length (L : VecLib V) (p : ConstructionPolyline V)
    (step : ℚ) (force_last : Bool) : Except PyErr (List V) :=
  if step ≤ 0 then .error .invalidArgument
  else if p.vertices.length < 2 then .error .insufficientVertices
  else
    let ds := stepLoop step p.length ((⌊p.length / step⌋).toNat + 1) 0
    match ds.mapM (fun d => p.vertexAtFast L d) with
    | .error e => .error e
    | .ok pts =>
        if force_last = true ∧
            ¬ L.isclose (pts.getLastD L.nullvec) (p.vertices.getLastD L.nullvec) REL_TOL
        then .ok (pts ++ [p.vertices.getLastD L.nullvec])
        else .ok pts

/-- The state of an `ApproxParamT` after `__init__` (fields `_polyline`,
`_max_t`, `_step`, named here after their public accessors). -/
structure ApproxParamT (V : Type) where
  polyline : ConstructionPolyline V
  max_t : ℚ
  step : ℚ

/-- Translation of `ApproxParamT.__init__`: sample the curve's `point`
method at `segments + 1` evenly spaced parameters over `[0, max_t]`, build
the internal polyline (not closed, default tolerance), store the step. -/
def mkApproxParamT (L : VecLib V) (point : ℚ → V) (max_t : ℚ) (segments : ℕ) :
    ApproxParamT V :=
  { polyline := mkPolyline L ((linspace 0 max_t (segments + 1)).map point) false REL_TOL
    max_t := max_t
    step := max_t / segments }

/-- Translation of `ApproxParamT.param_t`: approximate parameter for a
given distance.  `none` models the unreachable `IndexError` of
`poly.data(i)`. -/
def ApproxParamT.param_t (a : ApproxParamT V) (distance : ℚ) : Option ℚ :=
  if a.polyline.length ≤ distance then some a.max_t
  else
    let i := a.polyline.index_at distance
    match a.polyline.data i with
    | none => none
    | some (station, d0, _) =>
        let t := a.step * (i : ℚ)
        let t := if EPS12 < d0 then t - a.step * (station - distance) / d0 else t
        some (min a.max_t t)

/-- Translation of `ApproxParamT.distance`: approximate distance for a
given parameter.  In the branch taken for `0 < t < max_t` the Python
truncation `int(t / step)` is applied to a positive quotient, where it
agrees with the floor used here. -/
def ApproxParamT.distance (a : ApproxParamT V) (t : ℚ) : Option ℚ :=
  if t ≤ 0 then some 0
  else if a.max_t ≤ t then some a.polyline.length
  else
    let index : ℕ := (⌊t / a.step⌋).toNat + 1
    match a.polyline.data index with
    | none => none
    | some (station, d0, _) =>
        some (station - d0 * (a.step * (index : ℚ) - t) / a.step)

/-- Floor square root of a natural number by ascending scan (structural, so
the kernel can evaluate it on the small concrete inputs below). -/
def floorSqrt (n : ℕ) : ℕ :=
  ((List.range (n + 1)).filter fun k => k * k ≤ n).getLastD 0

/-- Rational square root, exact when numerator and denominator are perfect
squares.  Modelled from the spec: `Vec3.magnitude` (the Euclidean norm) is
an external geometry primitive not among the sources; every vector of the
concrete scenarios below has a perfect-square squared norm, on which this
is the exact Euclidean magnitude. -/
def ratSqrt (q : ℚ) : ℚ := (floorSqrt q.num.toNat : ℚ) / (floorSqrt q.den : ℚ)

/-- Euclidean magnitude of a planar rational vector (see `ratSqrt`). -/
def vecMagnitude (p : ℚ × ℚ) : ℚ := ratSqrt (p.1 ^ 2 + p.2 ^ 2)

/-- Modelled from the spec: `math.isclose(a, b, rel_tol, abs_tol=1e-12)` as
used per coordinate by `Vec3.isclose` (not among the sources):
`|a - b| <= max(rel_tol * max(|a|, |b|), abs_tol)`. -/
def mathIsclose (a b rel_tol : ℚ) : Bool :=
  decide (|a - b| ≤ max (rel_tol * max |a| |b|) EPS12)

/-- Modelled from the spec: `Vec3.isclose`, coordinatewise closeness. -/
def vecIsclose (v w : ℚ × ℚ) (rel_tol : ℚ) : Bool :=
  mathIsclose v.1 w.1 rel_tol && mathIsclose v.2 w.2 rel_tol

/-- Concrete planar rational instance of the vector primitive library,
used to run the spec's concrete scenarios. -/
def q2Lib : VecLib (ℚ × ℚ) where
  magnitude := vecMagnitude
  sub v w := (v.1 - w.1, v.2 - w.2)
  lerp a b f := (a.1 + (b.1 - a.1) * f, a.2 + (b.2 - a.2) * f)
  isclose := vecIsclose
  nullvec := (0, 0)
  magnitude_nonneg := by
    intro v
    exact div_nonneg (Nat.cast_nonneg _) (Nat.cast_nonneg _)
  isclose_refl := by
    intro v tol
    have h : ∀ a : ℚ, mathIsclose a a tol = true := by
      intro a
      have h0 : (0 : ℚ) ≤ max (tol * max |a| |a|) EPS12 :=
        le_trans (by norm_num [EPS12]) (le_max_right _ _)
      simpa [mathIsclose] using h0
    simp [vecIsclose, h]

/-- The spec's L-shape scenario polyline: `(0,0), (3,0), (3,4)`. -/
def lshapePoly : ConstructionPolyline (ℚ × ℚ) :=
  mkPolyline q2Lib [(0, 0), (3, 0), (3, 4)] false REL_TOL

/-- The spec's duplicate-vertex scenario polyline:
`(0,0), (1,0), (1,0), (2,0)`. -/
def dupPoly : ConstructionPolyline (ℚ × ℚ) :=
  mkPolyline q2Lib [(0, 0), (1, 0), (1, 0), (2, 0)] false REL_TOL

/-- A straight unit-speed curve on the x-axis, used as a concrete curve. -/
def lineCurve : ℚ → ℚ × ℚ := fun t => (t, 0)

/-- Concrete approximator over `lineCurve` with `max_t = 1`, 2 segments. -/
def lineApprox : ApproxParamT (ℚ × ℚ) := mkApproxParamT q2Lib lineCurve 1 2

/-- Concrete approximator with a negative `max_t` (degenerate but
constructible), whose internal polyline still has positive length. -/
def negApprox : ApproxParamT (ℚ × ℚ) := mkApproxParamT q2Lib lineCurve (-1) 1

/-! ### Basic list utilities -/

/-- Evaluation of `getD` at an index inside the list. -/
theorem getD_eq_get : ∀ (l : List ℚ) (n : ℕ) (h : n < l.length),
    l.getD n 0 = l.get ⟨n, h⟩
  | _ :: _, 0, _ => rfl
  | _ :: l, n + 1, h => getD_eq_get l n (Nat.lt_of_succ_lt_succ (by simpa using h))

/-- Monotonicity of `getD` on a non-decreasing list. -/
theorem getD_mono (l : List ℚ) (hs : l.Pairwise (· ≤ ·)) {i j : ℕ}
    (hij : i ≤ j) (hj : j < l.length) : l.getD i 0 ≤ l.getD j 0 := by
  rcases eq_or_lt_of_le hij with rfl | hlt
  · exact le_refl _
  · have hi : i < l.length := lt_trans hlt hj
    rw [getD_eq_get l i hi, getD_eq_get l j hj]
    exact List.pairwise_iff_get.mp hs ⟨i, hi⟩ ⟨j, hj⟩ hlt

/-- The default-valued last element is the entry at index `length - 1`. -/
theorem getLastD_eq_getD : ∀ (l : List ℚ), l ≠ [] →
    l.getLastD 0 = l.getD (l.length - 1) 0
  | [], h => absurd rfl h
  | [a], _ => rfl
  | a :: b :: l, _ => by
      have ih := getLastD_eq_getD (b :: l) (by simp)
      simpa using ih

/-- Every member of a non-decreasing list is bounded by its last element. -/
theorem le_getLastD_of_pairwise (l : List ℚ) (hs : l.Pairwise (· ≤ ·))
    {q : ℚ} (hq : q ∈ l) : q ≤ l.getLastD 0 := by
  obtain ⟨n, rfl⟩ := List.mem_iff_get.mp hq
  have hne : l ≠ [] := by intro h; subst h; exact absurd n.2 (by simp)
  have hlen : l.length - 1 < l.length := by
    have := n.2; omega
  rw [getLastD_eq_getD l hne, ← getD_eq_get l n n.2]
  exact getD_mono l hs (by have := n.2; omega) hlen

/-- The default-valued last element of a non-empty list is a member. -/
theorem getLastD_mem (l : List ℚ) (h : l ≠ []) : l.getLastD 0 ∈ l := by
  have hlen : 0 < l.length := List.length_pos.mpr h
  have hlt : l.length - 1 < l.length := by omega
  rw [getLastD_eq_getD l h, getD_eq_get l _ hlt]
  exact List.get_mem l _ hlt

/-! ### Lower-bound binary search: specification of `bisectLeft` -/

/-- Loop invariant of the translated `bisect_left`: starting from a
bracketing window `[lo, hi)` over a non-decreasing list, the search lands
on the lower-bound insertion point. -/
theorem bisectLeftAux_spec (l : List ℚ) (x : ℚ) (hs : l.Pairwise (· ≤ ·)) :
    ∀ (fuel lo hi : ℕ), lo ≤ hi → hi ≤ l.length → hi - lo ≤ fuel →
      (∀ j, j < lo → l.getD j 0 < x) →
      (∀ j, hi ≤ j → j < l.length → x ≤ l.getD j 0) →
      lo ≤ bisectLeftAux l x fuel lo hi ∧
      bisectLeftAux l x fuel lo hi ≤ hi ∧
      (∀ j, j < bisectLeftAux l x fuel lo hi → l.getD j 0 < x) ∧
      (∀ j, bisectLeftAux l x fuel lo hi ≤ j → j < l.length → x ≤ l.getD j 0) := by
  intro fuel
  induction fuel with
  | zero =>
      intro lo hi hlohi hhil hfuel hlow hhigh
      have heq : lo = hi := by omega
      subst heq
      simp only [bisectLeftAux]
      exact ⟨le_refl _, le_refl _, hlow, hhigh⟩
  | succ fuel ih =>
      intro lo hi hlohi hhil hfuel hlow hhigh
      simp only [bisectLeftAux]
      by_cases hlh : lo < hi
      · rw [if_pos hlh]
        have hmid1 : lo ≤ (lo + hi) / 2 := by omega
        have hmid2 : (lo + hi) / 2 < hi := by omega
        by_cases hcmp : l.getD ((lo + hi) / 2) 0 < x
        · rw [if_pos hcmp]
          have hlow' : ∀ j, j < (lo + hi) / 2 + 1 → l.getD j 0 < x := by
            intro j hj
            exact lt_of_le_of_lt
              (getD_mono l hs (by omega) (by omega)) hcmp
          obtain ⟨h1, h2, h3, h4⟩ :=
            ih ((lo + hi) / 2 + 1) hi (by omega) hhil (by omega) hlow' hhigh
          exact ⟨by omega, h2, h3, h4⟩
        · rw [if_neg hcmp]
          have hhigh' : ∀ j, (lo + hi) / 2 ≤ j → j < l.length → x ≤ l.getD j 0 := by
            intro j hj hjl
            exact le_trans (le_of_not_lt hcmp) (getD_mono l hs hj hjl)
          obtain ⟨h1, h2, h3, h4⟩ :=
            ih lo ((lo + hi) / 2) hmid1 (by omega) (by omega) hlow hhigh'
          exact ⟨h1, by omega, h3, h4⟩
      · rw [if_neg hlh]
        have heq : lo = hi := by omega
        subst heq
        exact ⟨le_refl _, le_refl _, hlow, hhigh⟩

/-- Specification of `bisectLeft` on a non-decreasing list: the result is
the lower-bound insertion point for `x`. -/
theorem bisectLeft_spec (l : List ℚ) (x : ℚ) (hs : l.Pairwise (· ≤ ·)) :
    bisectLeft l x ≤ l.length ∧
    (∀ j, j < bisectLeft l x → l.getD j 0 < x) ∧
    (∀ j, bisectLeft l x ≤ j → j < l.length → x ≤ l.getD j 0) := by
  obtain ⟨h1, h2, h3, h4⟩ := bisectLeftAux_spec l x hs l.length 0 l.length
    (Nat.zero_le _) (le_refl _) (by omega)
    (fun j hj => absurd hj (Nat.not_lt_zero j))
    (fun j hj hjl => absurd hjl (by omega))
  exact ⟨h2, h3, h4⟩

/-- The lower-bound insertion point is monotone in the query key. -/
theorem bisectLeft_mono (l : List ℚ) (hs : l.Pairwise (· ≤ ·)) {x y : ℚ}
    (hxy : x ≤ y) : bisectLeft l x ≤ bisectLeft l y := by
  by_contra hcon
  push_neg at hcon
  obtain ⟨hlex, hlowx, _⟩ := bisectLeft_spec l x hs
  obtain ⟨_, _, hhighy⟩ := bisectLeft_spec l y hs
  have hylen : bisectLeft l y < l.length := lt_of_lt_of_le hcon hlex
  have h1 : y ≤ l.getD (bisectLeft l y) 0 := hhighy _ (le_refl _) hylen
  have h2 : l.getD (bisectLeft l y) 0 < x := hlowx _ hcon
  linarith

/-! ### Structure of the cumulative distance list -/

/-- Length of the helper loop output. -/
theorem distancesFrom_length (L : VecLib V) :
    ∀ (vs : List V) (prev : V) (s : ℚ),
      (distancesFrom L prev s vs).length = vs.length
  | [], _, _ => rfl
  | v :: rest, prev, s => by
      simp [distancesFrom, distancesFrom_length L rest v]

/-- All stations produced by the helper loop dominate the running station. -/
theorem distancesFrom_le (L : VecLib V) :
    ∀ (vs : List V) (prev : V) (s q : ℚ),
      q ∈ distancesFrom L prev s vs → s ≤ q := by
  intro vs
  induction vs with
  | nil => intro prev s q hq; simp [distancesFrom] at hq
  | cons v rest ih =>
      intro prev s q hq
      have hm := L.magnitude_nonneg (L.sub v prev)
      simp only [distancesFrom, List.mem_cons] at hq
      rcases hq with rfl | hq
      · linarith
      · have := ih v (s + L.magnitude (L.sub v prev)) q hq
        linarith

/-- The helper loop output is non-decreasing. -/
theorem distancesFrom_pairwise (L : VecLib V) :
    ∀ (vs : List V) (prev : V) (s : ℚ),
      (distancesFrom L prev s vs).Pairwise (· ≤ ·) := by
  intro vs
  induction vs with
  | nil => intro prev s; simp [distancesFrom]
  | cons v rest ih =>
      intro prev s
      simp only [distancesFrom, List.pairwise_cons]
      exact ⟨fun q hq => distancesFrom_le L rest v _ q hq, ih v _⟩

/-- Length invariant: one station per vertex. -/
theorem listDistances_length (L : VecLib V) (vs : List V) :
    (listDistances L vs).length = vs.length := by
  cases vs with
  | nil => rfl
  | cons v rest => simp [listDistances, distancesFrom_length L rest v]

/-- The station list of a non-empty polyline starts at `0`. -/
theorem listDistances_get_zero (L : VecLib V) (v : V) (rest : List V) :
    (listDistances L (v :: rest)).get? 0 = some 0 := rfl

/-- All stations are non-negative. -/
theorem listDistances_nonneg (L : VecLib V) (vs : List V) {q : ℚ}
    (hq : q ∈ listDistances L vs) : 0 ≤ q := by
  cases vs with
  | nil => simp [listDistances] at hq
  | cons v rest =>
      simp only [listDistances, List.mem_cons] at hq
      rcases hq with rfl | hq
      · exact le_refl 0
      · exact distancesFrom_le L rest v 0 q hq

/-- The station list is non-decreasing. -/
theorem listDistances_pairwise (L : VecLib V) (vs : List V) :
    (listDistances L vs).Pairwise (· ≤ ·) := by
  cases vs with
  | nil => simp [listDistances]
  | cons v rest =>
      simp only [listDistances, List.pairwise_cons]
      exact ⟨fun q hq => distancesFrom_le L rest v 0 q hq,
        distancesFrom_pairwise L rest v 0⟩

/-- Consecutive-station relation inside the helper loop output. -/
theorem distancesFrom_get_succ (L : VecLib V) :
    ∀ (vs : List V) (prev : V) (s : ℚ) (i : ℕ) (v0 v1 : V),
      vs.get? i = some v0 → vs.get? (i + 1) = some v1 →
      ∃ d0, (distancesFrom L prev s vs).get? i = some d0 ∧
        (distancesFrom L prev s vs).get? (i + 1) =
          some (d0 + L.magnitude (L.sub v1 v0)) := by
  intro vs
  induction vs with
  | nil => intro prev s i v0 v1 h0 _; simp at h0
  | cons v rest ih =>
      intro prev s i v0 v1 h0 h1
      cases i with
      | zero =>
          have hv : v = v0 := by simpa using h0
          subst hv
          cases rest with
          | nil => simp at h1
          | cons w rest2 =>
              have hw : w = v1 := by simpa using h1
              subst hw
              exact ⟨s + L.magnitude (L.sub v prev), rfl, rfl⟩
      | succ i =>
          have h0' : rest.get? i = some v0 := by simpa using h0
          have h1' : rest.get? (i + 1) = some v1 := by simpa using h1
          obtain ⟨d0, hd0, hd1⟩ :=
            ih v (s + L.magnitude (L.sub v prev)) i v0 v1 h0' h1'
          exact ⟨d0, by simpa [distancesFrom] using hd0,
            by simpa [distancesFrom] using hd1⟩

/-- Consecutive-station relation of the full station list: each station is
the previous one plus the magnitude of the connecting segment. -/
theorem listDistances_get_succ (L : VecLib V) (vs : List V) (i : ℕ) (v0 v1 : V)
    (h0 : vs.get? i = some v0) (h1 : vs.get? (i + 1) = some v1) :
    ∃ d0, (listDistances L vs).get? i = some d0 ∧
      (listDistances L vs).get? (i + 1) =
        some (d0 + L.magnitude (L.sub v1 v0)) := by
  cases vs with
  | nil => simp at h0
  | cons v rest =>
      cases i with
      | zero =>
          have hv : v = v0 := by simpa using h0
          subst hv
          have h1' : rest.get? 0 = some v1 := by simpa using h1
          cases rest with
          | nil => simp at h1'
          | cons w rest2 =>
              have hw : w = v1 := by simpa using h1'
              subst hw
              exact ⟨0, rfl, rfl⟩
      | succ i =>
          have h0' : rest.get? i = some v0 := by simpa using h0
          have h1' : rest.get? (i + 1) = some v1 := by simpa using h1
          obtain ⟨d0, hd0, hd1⟩ := distancesFrom_get_succ L rest v 0 i v0 v1 h0' h1'
          exact ⟨d0, by simpa [listDistances] using hd0,
            by simpa [listDistances] using hd1⟩

/-- Index of a successful lookup is inside the list. -/
theorem lt_length_of_get? {α : Type} :
    ∀ (l : List α) (n : ℕ) (a : α), l.get? n = some a → n < l.length := by
  intro l
  induction l with
  | nil => intro n a h; simp at h
  | cons x xs ih =>
      intro n a h
      cases n with
      | zero => simp
      | succ n =>
          have := ih n a (by simpa using h)
          simpa using Nat.succ_lt_succ this

/-- A successful lookup determines the defaulted access. -/
theorem getD_of_get? {l : List ℚ} {n : ℕ} {a : ℚ} (h : l.get? n = some a) :
    l.getD n 0 = a := by
  have hn : n < l.length := lt_length_of_get? l n a h
  rw [getD_eq_get l n hn]
  have := List.get?_eq_get hn
  rw [this] at h
  exact Option.some.inj h

/-- Inside the list, the defaulted access succeeds. -/
theorem get?_of_lt {α : Type} (l : List α) (n : ℕ) (hn : n < l.length) :
    ∃ a, l.get? n = some a :=
  ⟨l.get ⟨n, hn⟩, List.get?_eq_get hn⟩

/-! ### Invariants of constructed polylines

Throughout, `hd : p.dists = listDistances L p.vertices` is the construction
invariant; `mkPolyline` establishes it definitionally. -/

/-- A constructed polyline satisfies the station-list invariant. -/
theorem mkPolyline_dists (L : VecLib V) (vs : List V) (close : Bool) (tol : ℚ) :
    (mkPolyline L vs close tol).dists =
      listDistances L (mkPolyline L vs close tol).vertices := rfl

/-- One station per vertex. -/
theorem dists_length_eq {L : VecLib V} {p : ConstructionPolyline V}
    (hd : p.dists = listDistances L p.vertices) :
    p.dists.length = p.vertices.length := by
  rw [hd]; exact listDistances_length L p.vertices

/-- The station list of an invariant polyline is non-decreasing. -/
theorem dists_pairwise {L : VecLib V} {p : ConstructionPolyline V}
    (hd : p.dists = listDistances L p.vertices) :
    p.dists.Pairwise (· ≤ ·) := by
  rw [hd]; exact listDistances_pairwise L p.vertices

/-- Every station is bounded by the total length. -/
theorem le_length_of_mem {L : VecLib V} {p : ConstructionPolyline V}
    (hd : p.dists = listDistances L p.vertices) {q : ℚ} (hq : q ∈ p.dists) :
    q ≤ p.length :=
  le_getLastD_of_pairwise p.dists (dists_pairwise hd) hq

/-- The total length of an invariant polyline is non-negative. -/
theorem length_nonneg {L : VecLib V} {p : ConstructionPolyline V}
    (hd : p.dists = listDistances L p.vertices) : 0 ≤ p.length := by
  unfold ConstructionPolyline.length
  by_cases hne : p.dists = []
  · rw [hne]; exact le_refl 0
  · exact listDistances_nonneg L p.vertices (hd ▸ getLastD_mem p.dists hne)

/-- The last station is the total length. -/
theorem dists_getD_last {p : ConstructionPolyline V} (hne : p.dists ≠ []) :
    p.dists.getD (p.dists.length - 1) 0 = p.length :=
  (getLastD_eq_getD p.dists hne).symm

/-- The first station of a non-empty invariant polyline is `0`. -/
theorem dists_get_zero {L : VecLib V} {p : ConstructionPolyline V}
    (hd : p.dists = listDistances L p.vertices) (hne : p.vertices ≠ []) :
    p.dists.get? 0 = some 0 := by
  obtain ⟨v, rest, hv⟩ := List.exists_cons_of_ne_nil hne
  rw [hd, hv]
  exact listDistances_get_zero L v rest

/-- The first station of a non-empty invariant polyline, defaulted form. -/
theorem dists_getD_zero {L : VecLib V} {p : ConstructionPolyline V}
    (hd : p.dists = listDistances L p.vertices) (hne : p.vertices ≠ []) :
    p.dists.getD 0 0 = 0 :=
  getD_of_get? (dists_get_zero hd hne)

/-! ### Facts about `index_at` and the search bracket -/

/-- For a query of at most the total length, the raw search stays below the
last index. -/
theorem bisect_le_len_sub_one {L : VecLib V} {p : ConstructionPolyline V}
    (hd : p.dists = listDistances L p.vertices) {d : ℚ}
    (hne : p.dists ≠ []) (hdle : d ≤ p.length) :
    bisectLeft p.dists d ≤ p.dists.length - 1 := by
  obtain ⟨hle, hlow, _⟩ := bisectLeft_spec p.dists d (dists_pairwise hd)
  by_contra hcon
  push_neg at hcon
  have hlen : 0 < p.dists.length := List.length_pos.mpr hne
  have h1 : p.dists.getD (p.dists.length - 1) 0 < d := hlow _ (by omega)
  rw [dists_getD_last hne] at h1
  linarith

/-- For a positive query on a non-empty invariant polyline, the raw search
returns a positive index. -/
theorem bisect_ge_one {L : VecLib V} {p : ConstructionPolyline V}
    (hd : p.dists = listDistances L p.vertices) {d : ℚ}
    (hne : p.vertices ≠ []) (hdpos : 0 < d) :
    1 ≤ bisectLeft p.dists d := by
  obtain ⟨_, _, hhigh⟩ := bisectLeft_spec p.dists d (dists_pairwise hd)
  by_contra hcon
  push_neg at hcon
  have h0 : bisectLeft p.dists d = 0 := by omega
  have hlen : 0 < p.dists.length := by
    rw [dists_length_eq hd]; exact List.length_pos.mpr hne
  have := hhigh 0 (by omega) hlen
  rw [dists_getD_zero hd hne] at this
  linarith

/-- The clamped `index_at` always lands inside the station list of a
non-empty invariant polyline. -/
theorem index_at_lt_length {L : VecLib V} {p : ConstructionPolyline V}
    (hd : p.dists = listDistances L p.vertices) (hne : p.vertices ≠ [])
    (d : ℚ) : p.index_at d < p.dists.length := by
  have hlen : p.dists.length = p.vertices.length := dists_length_eq hd
  have hvpos : 0 < p.vertices.length := List.length_pos.mpr hne
  have hdne : p.dists ≠ [] := by
    intro h; rw [h, List.length_nil] at hlen; omega
  unfold ConstructionPolyline.index_at
  by_cases h1 : d ≤ 0
  · rw [if_pos h1]; omega
  · rw [if_neg h1]
    by_cases h2 : p.length ≤ d
    · rw [if_pos h2]; simp only [Nat.zero_max]; omega
    · rw [if_neg h2]
      have := bisect_le_len_sub_one hd hdne (le_of_not_le h2)
      unfold ConstructionPolyline.indexAtFast
      omega

/-- `index_at` is monotone non-decreasing in the distance. -/
theorem index_at_mono {L : VecLib V} {p : ConstructionPolyline V}
    (hd : p.dists = listDistances L p.vertices) (hne : p.vertices ≠ [])
    {d1 d2 : ℚ} (h12 : d1 ≤ d2) : p.index_at d1 ≤ p.index_at d2 := by
  have hlen : p.dists.length = p.vertices.length := dists_length_eq hd
  have hvpos : 0 < p.vertices.length := List.length_pos.mpr hne
  have hdne : p.dists ≠ [] := by intro h; rw [h, List.length_nil] at hlen; omega
  unfold ConstructionPolyline.index_at ConstructionPolyline.indexAtFast
  by_cases h1 : d1 ≤ 0
  · rw [if_pos h1]; exact Nat.zero_le _
  · rw [if_neg h1]
    have h1' : ¬ d2 ≤ 0 := by linarith
    rw [if_neg h1']
    by_cases h2 : p.length ≤ d1
    · rw [if_pos h2, if_pos (le_trans h2 h12)]
    · rw [if_neg h2]
      by_cases h3 : p.length ≤ d2
      · rw [if_pos h3]
        have := bisect_le_len_sub_one hd hdne (le_of_not_le h2)
        simp only [Nat.zero_max]
        omega
      · rw [if_neg h3]
        exact bisectLeft_mono p.dists (dists_pairwise hd) h12

/-- Inside `(0, length]`, the raw search produces a genuine bracket: the
station before the landing index is strictly below the query, the landing
station is at least the query. -/
theorem bisect_bracket {L : VecLib V} {p : ConstructionPolyline V}
    (hd : p.dists = listDistances L p.vertices) {d : ℚ}
    (h1 : 1 ≤ bisectLeft p.dists d) (h2 : bisectLeft p.dists d < p.dists.length) :
    p.dists.getD (bisectLeft p.dists d - 1) 0 < d ∧
      d ≤ p.dists.getD (bisectLeft p.dists d) 0 := by
  obtain ⟨_, hlow, hhigh⟩ := bisectLeft_spec p.dists d (dists_pairwise hd)
  exact ⟨hlow _ (by omega), hhigh _ (le_refl _) h2⟩

/-! ### Facts about `data` and the interpolation core -/

/-- `data 0` on a non-empty polyline. -/
theorem data_zero {p : ConstructionPolyline V} (hne : p.vertices ≠ []) :
    ∃ v0, p.vertices.get? 0 = some v0 ∧ p.data 0 = some (0, 0, v0) := by
  obtain ⟨v, rest, hv⟩ := List.exists_cons_of_ne_nil hne
  have h0 : p.vertices.get? 0 = some v := by rw [hv]; rfl
  refine ⟨v, h0, ?_⟩
  unfold ConstructionPolyline.data
  rw [h0]
  simp

/-- `data i` at a positive in-range index: the station, the step from the
previous station, and the vertex. -/
theorem data_succ {L : VecLib V} {p : ConstructionPolyline V}
    (hd : p.dists = listDistances L p.vertices) {i : ℕ}
    (hi1 : 1 ≤ i) (hilen : i < p.dists.length) :
    ∃ pd cd v, p.dists.get? (i - 1) = some pd ∧ p.dists.get? i = some cd ∧
      p.vertices.get? i = some v ∧ p.data i = some (cd, cd - pd, v) := by
  have hlen : p.dists.length = p.vertices.length := dists_length_eq hd
  have hne : p.vertices ≠ [] := by
    intro h; rw [h, List.length_nil] at hlen; omega
  obtain ⟨v0, rest, hv⟩ := List.exists_cons_of_ne_nil hne
  have h0 : p.vertices.get? 0 = some v0 := by rw [hv]; rfl
  obtain ⟨pd, hpd⟩ := get?_of_lt p.dists (i - 1) (by omega)
  obtain ⟨cd, hcd⟩ := get?_of_lt p.dists i hilen
  obtain ⟨v, hv2⟩ := get?_of_lt p.vertices i (by omega)
  refine ⟨pd, cd, v, hpd, hcd, hv2, ?_⟩
  have hstep : p.data i =
      if i = 0 then some (0, 0, v0)
      else
        match p.dists.get? (i - 1), p.dists.get? i, p.vertices.get? i with
        | some pd, some cd, some v => some (cd, cd - pd, v)
        | _, _, _ => none := by
    unfold ConstructionPolyline.data
    rw [h0]
  rw [hstep, if_neg (by omega : ¬ i = 0), hpd, hcd, hv2]

/-- The degenerate-segment walk does not move when the starting station
already differs from the landing station. -/
theorem skipCoincident_eq_self (dists : List ℚ) (d1 : ℚ) (i : ℕ)
    (h : dists.getD i 0 ≠ d1) : skipCoincident dists d1 i = i := by
  cases i with
  | zero => rfl
  | succ i => unfold skipCoincident; rw [if_neg h]

/-- Core behaviour of `_vertex_at` on an invariant polyline: it can never
hit the `ArithmeticError` branch, and for an in-range distance on a
non-empty polyline it succeeds. -/
theorem vertexAtFast_cases (L : VecLib V) (p : ConstructionPolyline V)
    (hd : p.dists = listDistances L p.vertices) (d : ℚ) :
    p.vertexAtFast L d ≠ .error .internalInconsistency ∧
    (0 ≤ d → d ≤ p.length → p.vertices ≠ [] → ∃ v, p.vertexAtFast L d = .ok v) := by
  unfold ConstructionPolyline.vertexAtFast ConstructionPolyline.indexAtFast
  by_cases h0 : bisectLeft p.dists d = 0
  · rw [h0]
    simp only [if_pos rfl]
    constructor
    · cases hv : p.vertices.get? 0 <;> simp
    · intro _ _ hne
      obtain ⟨v0, rest, hv⟩ := List.exists_cons_of_ne_nil hne
      rw [hv]
      exact ⟨v0, rfl⟩
  · rw [if_neg h0]
    cases hto : p.dists.get? (bisectLeft p.dists d) with
    | none =>
        constructor
        · simp
        · intro hge hle hne
          exfalso
          have hlen : p.dists.length = p.vertices.length := dists_length_eq hd
          have hdne : p.dists ≠ [] := by
            intro h
            rw [h, List.length_nil] at hlen
            exact hne (List.length_eq_zero.mp hlen.symm)
          have := bisect_le_len_sub_one hd hdne hle
          have hlt : bisectLeft p.dists d < p.dists.length := by
            have : 0 < p.dists.length := List.length_pos.mpr hdne
            omega
          obtain ⟨a, ha⟩ := get?_of_lt p.dists _ hlt
          rw [ha] at hto
          exact Option.noConfusion hto
    | some distance1 =>
        have hrlen : bisectLeft p.dists d < p.dists.length :=
          lt_length_of_get? _ _ _ hto
        have h1le : 1 ≤ bisectLeft p.dists d := Nat.one_le_iff_ne_zero.mpr h0
        obtain ⟨hlow, hup⟩ := bisect_bracket hd h1le hrlen
        have hdist1 : p.dists.getD (bisectLeft p.dists d) 0 = distance1 :=
          getD_of_get? hto
        have hne1 : p.dists.getD (bisectLeft p.dists d - 1) 0 ≠ distance1 := by
          rw [← hdist1]
          exact ne_of_lt (lt_of_lt_of_le hlow hup)
        dsimp only
        rw [skipCoincident_eq_self _ _ _ hne1]
        rw [if_neg hne1]
        constructor
        · cases hva : p.vertices.get? (bisectLeft p.dists d - 1) <;>
            cases hvb : p.vertices.get? (bisectLeft p.dists d) <;> simp
        · intro hge hle hne
          have hlen : p.dists.length = p.vertices.length := dists_length_eq hd
          obtain ⟨a, ha⟩ := get?_of_lt p.vertices (bisectLeft p.dists d - 1) (by omega)
          obtain ⟨b, hb⟩ := get?_of_lt p.vertices (bisectLeft p.dists d) (by omega)
          rw [ha, hb]
          exact ⟨_, rfl⟩

/-- `_vertex_at` never reports the internal-inconsistency error on an
invariant polyline. -/
theorem vertexAtFast_ne_internal (L : VecLib V) (p : ConstructionPolyline V)
    (hd : p.dists = listDistances L p.vertices) (d : ℚ) :
    p.vertexAtFast L d ≠ .error .internalInconsistency :=
  (vertexAtFast_cases L p hd d).1

/-- `_vertex_at` succeeds on every in-range distance of a non-empty
invariant polyline. -/
theorem vertexAtFast_ok (L : VecLib V) (p : ConstructionPolyline V)
    (hd : p.dists = listDistances L p.vertices) {d : ℚ}
    (hge : 0 ≤ d) (hle : d ≤ p.length) (hne : p.vertices ≠ []) :
    ∃ v, p.vertexAtFast L d = .ok v :=
  (vertexAtFast_cases L p hd d).2 hge hle hne

/-! ### Effectful map over `Except` -/

/-- If every element maps to a success, `mapM` succeeds and relates input
and output pointwise. -/
theorem mapM_ok_of_forall {α β : Type} (f : α → Except PyErr β) :
    ∀ (ds : List α), (∀ x ∈ ds, ∃ v, f x = .ok v) →
      ∃ pts, ds.mapM f = .ok pts ∧ pts.length = ds.length ∧
        ∀ i x, ds.get? i = some x → ∃ v, pts.get? i = some v ∧ f x = .ok v := by
  intro ds
  induction ds with
  | nil =>
      intro _
      exact ⟨[], rfl, rfl, fun i x h => by simp at h⟩
  | cons a l ih =>
      intro hall
      obtain ⟨v, hv⟩ := hall a (by simp)
      obtain ⟨pts, hpts, hlen, hrel⟩ := ih fun x hx => hall x (by simp [hx])
      refine ⟨v :: pts, ?_, by simp [hlen], ?_⟩
      · rw [List.mapM_cons, hv, hpts]; rfl
      · intro i x hx
        cases i with
        | zero =>
            have hax : a = x := by simpa using hx
            subst hax
            exact ⟨v, rfl, hv⟩
        | succ i =>
            exact hrel i x (by simpa using hx)

/-- A failing `mapM` exhibits a failing element. -/
theorem mapM_error {α β : Type} (f : α → Except PyErr β) :
    ∀ (ds : List α) (e : PyErr), ds.mapM f = .error e →
      ∃ x, x ∈ ds ∧ f x = .error e := by
  intro ds
  induction ds with
  | nil =>
      intro e h
      rw [show ([] : List α).mapM f = (.ok [] : Except PyErr (List β)) from rfl] at h
      exact Except.noConfusion h
  | cons a l ih =>
      intro e h
      rw [List.mapM_cons] at h
      cases hfa : f a with
      | error e1 =>
          rw [hfa] at h
          have he : e1 = e := by
            have : (Except.error e1 : Except PyErr (List β)) = .error e := h
            exact Except.error.inj this
          exact ⟨a, by simp, by rw [hfa, he]⟩
      | ok v =>
          rw [hfa] at h
          cases hml : l.mapM f with
          | error e2 =>
              rw [hml] at h
              have he : e2 = e := by
                have : (Except.error e2 : Except PyErr (List β)) = .error e := h
                exact Except.error.inj this
              obtain ⟨x, hx, hfx⟩ := ih e2 hml
              exact ⟨x, by simp [hx], by rw [hfx, he]⟩
          | ok pts =>
              rw [hml] at h
              exact Except.noConfusion h

/-- In range and with enough vertices, the public `vertex_at` delegates to
the unchecked `_vertex_at`. -/
theorem vertex_at_eq_fast (L : VecLib V) (p : ConstructionPolyline V) {d : ℚ}
    (hge : 0 ≤ d) (hle : d ≤ p.length) (hv : 2 ≤ p.vertices.length) :
    p.vertex_at L d = p.vertexAtFast L d := by
  unfold ConstructionPolyline.vertex_at
  rw [if_neg (by push_neg; constructor <;> linarith), if_neg (by omega)]

/-! ### Claim theorems -/

/-- Claim C1: `index_at` clamps any distance at most `0` to index `0`;
clamps any (positive) distance at least the length to the last valid index
(`0` on an empty polyline, via the truncated subtraction); and for a
distance strictly between `0` and the length returns the first index whose
station is at least the distance (lower-bound binary search), the clauses
being read in the source's order. -/
theorem C1_index_at (L : VecLib V) (vs : List V) (close : Bool) (tol : ℚ)
    (p : ConstructionPolyline V) (hp : p = mkPolyline L vs close tol) (d : ℚ) :
    (d ≤ 0 → p.index_at d = 0) ∧
    (0 < d → p.length ≤ d → p.index_at d = p.vertices.length - 1) ∧
    (0 < d → d < p.length →
      p.index_at d < p.dists.length ∧
      (∀ dj, p.dists.get? (p.index_at d) = some dj → d ≤ dj) ∧
      (∀ j, j < p.index_at d → ∀ dj, p.dists.get? j = some dj → dj < d)) := by
  have hd : p.dists = listDistances L p.vertices := by rw [hp]; rfl
  refine ⟨?_, ?_, ?_⟩
  · intro h1
    unfold ConstructionPolyline.index_at
    rw [if_pos h1]
  · intro h1 h2
    unfold ConstructionPolyline.index_at
    rw [if_neg (by linarith), if_pos h2, Nat.zero_max]
  · intro h1 h2
    have hdne : p.dists ≠ [] := by
      intro h
      have hz : p.length = 0 := by
        unfold ConstructionPolyline.length; rw [h]; rfl
      rw [hz] at h2
      linarith
    have hne : p.vertices ≠ [] := by
      intro h
      have hlen := dists_length_eq hd
      rw [h, List.length_nil] at hlen
      exact hdne (List.length_eq_zero.mp hlen)
    have hlt := index_at_lt_length hd hne d
    have hia : p.index_at d = bisectLeft p.dists d := by
      unfold ConstructionPolyline.index_at ConstructionPolyline.indexAtFast
      rw [if_neg (by linarith), if_neg (by linarith)]
    obtain ⟨hle, hlow, hhigh⟩ := bisectLeft_spec p.dists d (dists_pairwise hd)
    refine ⟨hlt, ?_, ?_⟩
    · intro dj hdj
      have hjlt : p.index_at d < p.dists.length := hlt
      have := hhigh (p.index_at d) (by rw [hia]) hjlt
      rw [getD_of_get? hdj] at this
      exact this
    · intro j hj dj hdj
      rw [hia] at hj
      have := hlow j hj
      rw [getD_of_get? hdj] at this
      exact this

/-- Claim C2: on the duplicate-vertex scenario polyline
`(0,0), (1,0), (1,0), (2,0)`, the interpolation at distance `1.5` passes
over the zero-length bracket at the duplicate (the lower-bound search
already brackets between the second `(1,0)` and `(2,0)`) and returns
exactly `(1.5, 0)`. -/
theorem C2_point_at_duplicate :
    dupPoly.vertex_at q2Lib (3 / 2) = .ok (3 / 2, 0) := by decide

/-- Claim C3: `point_at` (`vertex_at` in the code) fails with `OutOfRange`
exactly when the distance is negative or exceeds the length; in range it
fails with `InsufficientVertices` when there are fewer than 2 vertices, and
otherwise returns a point. -/
theorem C3_vertex_at_errors (L : VecLib V) (vs : List V) (close : Bool) (tol : ℚ)
    (p : ConstructionPolyline V) (hp : p = mkPolyline L vs close tol) (d : ℚ) :
    (p.vertex_at L d = .error .outOfRange ↔ (d < 0 ∨ p.length < d)) ∧
    (0 ≤ d → d ≤ p.length → p.vertices.length < 2 →
      p.vertex_at L d = .error .insufficientVertices) ∧
    (0 ≤ d → d ≤ p.length → 2 ≤ p.vertices.length →
      ∃ v, p.vertex_at L d = .ok v) := by
  have hd : p.dists = listDistances L p.vertices := by rw [hp]; rfl
  unfold ConstructionPolyline.vertex_at
  by_cases h1 : d < 0 ∨ p.length < d
  · rw [if_pos h1]
    refine ⟨⟨fun _ => h1, fun _ => rfl⟩, ?_, ?_⟩
    · intro hge hle _
      exfalso; rcases h1 with h | h <;> linarith
    · intro hge hle _
      exfalso; rcases h1 with h | h <;> linarith
  · rw [if_neg h1]
    rcases not_or.mp h1 with ⟨h1a, h1b⟩
    have hge : 0 ≤ d := not_lt.mp h1a
    have hle : d ≤ p.length := not_lt.mp h1b
    by_cases h2 : p.vertices.length < 2
    · rw [if_pos h2]
      refine ⟨⟨fun hcon => absurd hcon (by simp), fun hcon => absurd hcon h1⟩,
        fun _ _ _ => rfl, fun _ _ hcon => absurd h2 (by omega)⟩
    · rw [if_neg h2]
      have hne : p.vertices ≠ [] := by
        intro h; rw [h] at h2; simp at h2
      obtain ⟨v, hv⟩ := vertexAtFast_ok L p hd hge hle hne
      refine ⟨⟨fun hcon => ?_, fun hcon => absurd hcon h1⟩,
        fun _ _ hcon => absurd hcon h2, fun _ _ _ => ⟨v, hv⟩⟩
      rw [hv] at hcon
      exact absurd hcon (by simp)

/-- Claim C4: every constructed polyline — built from any vertex sequence,
with or without closing, and in particular every sub-range slice (a slice
constructs a fresh polyline from the sliced vertex list through the same
constructor) — has one station per vertex, stations starting at `0`, each
station equal to the previous one plus the magnitude of the connecting
segment, a non-decreasing station list and a non-negative length. -/
theorem C4_distances_invariant (L : VecLib V) (vs : List V) (close : Bool)
    (tol : ℚ) (p : ConstructionPolyline V) (hp : p = mkPolyline L vs close tol) :
    p.dists.length = p.vertices.length ∧
    (p.vertices ≠ [] → p.dists.get? 0 = some 0) ∧
    (∀ i v0 v1, p.vertices.get? i = some v0 → p.vertices.get? (i + 1) = some v1 →
      ∃ d0, p.dists.get? i = some d0 ∧
        p.dists.get? (i + 1) = some (d0 + L.magnitude (L.sub v1 v0))) ∧
    p.dists.Pairwise (· ≤ ·) ∧ 0 ≤ p.length := by
  have hd : p.dists = listDistances L p.vertices := by rw [hp]; rfl
  refine ⟨dists_length_eq hd, fun hne => dists_get_zero hd hne, ?_,
    dists_pairwise hd, length_nonneg hd⟩
  intro i v0 v1 h0 h1
  rw [hd]
  exact listDistances_get_succ L p.vertices i v0 v1 h0 h1

/-- Claim C9: on a constructed polyline the `ArithmeticError` branch (the
`InternalInconsistency` failure after the degenerate-segment walk) is
unreachable through `point_at`, `divide` and `divide_by_length`: the
lower-bound search always lands on a strict bracket first. -/
theorem C9_internal_error_unreachable (L : VecLib V) (vs : List V)
    (close : Bool) (tol : ℚ) (p : ConstructionPolyline V)
    (hp : p = mkPolyline L vs close tol) :
    (∀ d, p.vertex_at L d ≠ .error .internalInconsistency) ∧
    (∀ n, p.divide L n ≠ .error .internalInconsistency) ∧
    (∀ step fl, p.divide_by_length L step fl ≠ .error .internalInconsistency) := by
  have hd : p.dists = listDistances L p.vertices := by rw [hp]; rfl
  refine ⟨?_, ?_, ?_⟩
  · intro d
    unfold ConstructionPolyline.vertex_at
    by_cases h1 : d < 0 ∨ p.length < d
    · rw [if_pos h1]; simp
    · rw [if_neg h1]
      by_cases h2 : p.vertices.length < 2
      · rw [if_pos h2]; simp
      · rw [if_neg h2]
        exact vertexAtFast_ne_internal L p hd d
  · intro n
    unfold ConstructionPolyline.divide
    by_cases h1 : n < 2
    · rw [if_pos h1]; simp
    · rw [if_neg h1]
      intro hcon
      obtain ⟨x, _, hfx⟩ := mapM_error _ _ _ hcon
      exact vertexAtFast_ne_internal L p hd x hfx
  · intro step fl
    unfold ConstructionPolyline.divide_by_length
    by_cases h1 : step ≤ 0
    · rw [if_pos h1]; simp
    · rw [if_neg h1]
      by_cases h2 : p.vertices.length < 2
      · rw [if_pos h2]; simp
      · rw [if_neg h2]
        dsimp only
        cases hm : (stepLoop step p.length ((⌊p.length / step⌋).toNat + 1) 0).mapM
            (fun d => p.vertexAtFast L d) with
        | error e =>
            dsimp only
            intro hcon
            have he : e = PyErr.internalInconsistency := Except.error.inj hcon
            obtain ⟨x, _, hfx⟩ := mapM_error _ _ _ hm
            rw [he] at hfx
            exact vertexAtFast_ne_internal L p hd x hfx
        | ok pts =>
            dsimp only
            split_ifs <;> simp

/-- Explicit form of the constructor's closing branch on a non-empty input. -/
theorem mkPolyline_vertices_cases (L : VecLib V) (v0 : V) (rest : List V)
    (close : Bool) (tol : ℚ) :
    (mkPolyline L (v0 :: rest) close tol).vertices =
      if close = true ∧ 2 < (v0 :: rest).length then
        if L.isclose v0 (rest.getLastD v0) tol then v0 :: rest
        else (v0 :: rest) ++ [v0]
      else v0 :: rest := rfl

/-- The constructor stores the given tolerance. -/
theorem mkPolyline_rel_tol (L : VecLib V) (vs : List V) (close : Bool) (tol : ℚ) :
    (mkPolyline L vs close tol).rel_tol = tol := by
  cases vs <;> rfl

/-- Explicit form of `is_closed` on a polyline with known vertices. -/
theorem is_closed_cons (L : VecLib V) (p : ConstructionPolyline V) (v0 : V)
    (rest : List V) (hv : p.vertices = v0 :: rest) :
    p.is_closed L =
      if 2 < (v0 :: rest).length then L.isclose v0 (rest.getLastD v0) p.rel_tol
      else false := by
  unfold ConstructionPolyline.is_closed
  rw [hv]

/-- Claim C8 counterexample: a 2-vertex polyline built with `close = true`
is not closed — the closing branch requires more than 2 vertices and
`is_closed` returns `False` for at most 2 vertices, refuting the claim's
unconditional "built with close=true satisfies is_closed". -/
theorem C8_cex :
    (mkPolyline q2Lib [((0 : ℚ), (0 : ℚ)), (1, 0)] true REL_TOL).is_closed q2Lib
      = false := by decide

/-- Claim C8 as amended: a polyline built with `close = true` from more
than 2 input vertices satisfies `is_closed`; and closing is idempotent for
every input whose first and last vertices are already close — no synthetic
vertex is appended (the vertex list is unchanged). -/
theorem C8_amended (L : VecLib V) (vs : List V) (tol : ℚ) :
    (2 < vs.length → (mkPolyline L vs true tol).is_closed L = true) ∧
    (∀ v0 rest, vs = v0 :: rest →
      L.isclose v0 (rest.getLastD v0) tol = true →
      (mkPolyline L vs true tol).vertices = vs) := by
  constructor
  · intro hlen
    have hne : vs ≠ [] := by
      intro h; rw [h] at hlen; simp at hlen
    obtain ⟨v0, rest, rfl⟩ := List.exists_cons_of_ne_nil hne
    have hrt := mkPolyline_rel_tol L (v0 :: rest) true tol
    by_cases hcl : L.isclose v0 (rest.getLastD v0) tol = true
    · have hv : (mkPolyline L (v0 :: rest) true tol).vertices = v0 :: rest := by
        rw [mkPolyline_vertices_cases, if_pos ⟨rfl, hlen⟩, if_pos hcl]
      rw [is_closed_cons L _ v0 rest hv, if_pos hlen, hrt]
      exact hcl
    · have hv : (mkPolyline L (v0 :: rest) true tol).vertices
          = v0 :: (rest ++ [v0]) := by
        rw [mkPolyline_vertices_cases, if_pos ⟨rfl, hlen⟩, if_neg hcl]
        rfl
      rw [is_closed_cons L _ v0 (rest ++ [v0]) hv]
      rw [if_pos (by simp at hlen ⊢; omega)]
      rw [hrt, List.getLastD_concat]
      exact L.isclose_refl v0 tol
  · intro v0 rest hvs hcl
    subst hvs
    rw [mkPolyline_vertices_cases]
    by_cases h2 : 2 < (v0 :: rest).length
    · rw [if_pos ⟨rfl, h2⟩, if_pos hcl]
    · rw [if_neg fun hcon => h2 hcon.2]

/-- Witness for the amended C8 at concrete inputs: a 3-vertex open input
is closed by construction, and an already-closed input is unchanged. -/
theorem C8_amended_witness :
    (2 < ([((0 : ℚ), (0 : ℚ)), (1, 0), (1, 1)] : List (ℚ × ℚ)).length) ∧
    (mkPolyline q2Lib [((0 : ℚ), (0 : ℚ)), (1, 0), (1, 1)] true REL_TOL).is_closed
      q2Lib = true ∧
    (mkPolyline q2Lib [((0 : ℚ), (0 : ℚ)), (1, 0), (0, 0)] true REL_TOL).vertices
      = [((0 : ℚ), (0 : ℚ)), (1, 0), (0, 0)] :=
  ⟨by decide,
    (C8_amended q2Lib [((0 : ℚ), (0 : ℚ)), (1, 0), (1, 1)] REL_TOL).1 (by decide),
    (C8_amended q2Lib [((0 : ℚ), (0 : ℚ)), (1, 0), (0, 0)] REL_TOL).2
      (0, 0) [(1, 0), (0, 0)] rfl (by decide)⟩

/-! ### The stepping loop of `divide_by_length` -/

/-- Unfolding a map over an initial segment of the naturals. -/
theorem map_range_succ_cons (f : ℕ → ℚ) (n : ℕ) :
    (List.range (n + 1)).map f = f 0 :: (List.range n).map fun k => f (k + 1) := by
  rw [List.range_succ_eq_map, List.map_cons, List.map_map]
  rfl

/-- The fuel-based `while distance <= total` loop: with enough fuel (or a
query already past the end) it produces exactly the arithmetic sequence of
stepped distances not exceeding the total. -/
theorem stepLoop_eq (step total : ℚ) (hstep : 0 < step) :
    ∀ (fuel : ℕ) (d : ℚ),
      (((⌊(total - d) / step⌋).toNat + 1 ≤ fuel ∧ d ≤ total) ∨ total < d) →
      stepLoop step total fuel d =
        (List.range (if d ≤ total then (⌊(total - d) / step⌋).toNat + 1 else 0)).map
          (fun k : ℕ => d + step * (k : ℚ)) := by
  intro fuel
  induction fuel with
  | zero =>
      intro d hcase
      rcases hcase with ⟨hf, _⟩ | hgt
      · omega
      · rw [if_neg (not_le.mpr hgt)]
        simp [stepLoop]
  | succ fuel ih =>
      intro d hcase
      by_cases hle : d ≤ total
      · have h0q : 0 ≤ (total - d) / step := div_nonneg (by linarith) hstep.le
        have hfuel : (⌊(total - d) / step⌋).toNat + 1 ≤ fuel + 1 := by
          rcases hcase with ⟨hf, _⟩ | hgt
          · exact hf
          · exact absurd hle (not_le.mpr hgt)
        rw [if_pos hle]
        unfold stepLoop
        rw [if_pos hle]
        by_cases hle2 : d + step ≤ total
        · have hfloor : ⌊(total - (d + step)) / step⌋ = ⌊(total - d) / step⌋ - 1 := by
            have heq : (total - (d + step)) / step = (total - d) / step - 1 := by
              field_simp
              ring
            rw [heq, Int.floor_sub_one]
          have hone : 1 ≤ ⌊(total - d) / step⌋ := by
            rw [Int.le_floor]
            push_cast
            rw [le_div_iff hstep]
            linarith
          have hNN : (⌊(total - d) / step⌋).toNat
              = (⌊(total - (d + step)) / step⌋).toNat + 1 := by
            rw [hfloor]; omega
          rw [ih (d + step) (Or.inl ⟨by rw [hfloor]; omega, hle2⟩)]
          rw [if_pos hle2, hNN]
          conv_rhs => rw [map_range_succ_cons]
          congr 1
          · simp
          · have hfun : (fun k : ℕ => (d + step) + step * (k : ℚ))
                = fun k : ℕ => d + step * ((k + 1 : ℕ) : ℚ) := by
              funext k
              push_cast
              ring
            rw [hfun]
        · have hN0 : ⌊(total - d) / step⌋ = 0 := by
            refine Int.floor_eq_zero_iff.mpr ⟨h0q, ?_⟩
            rw [div_lt_one hstep]
            linarith
          rw [ih (d + step) (Or.inr (by linarith))]
          rw [if_neg (by linarith : ¬ d + step ≤ total), hN0]
          simp [List.range_succ]
      · rw [if_neg hle]
        unfold stepLoop
        rw [if_neg hle]
        simp

/-- The loop as called by `divide_by_length`: starting at `0` with the fuel
chosen at the call site, it yields `step * k` for `k = 0 .. ⌊total/step⌋`. -/
theorem stepLoop_at_zero (step total : ℚ) (hstep : 0 < step) (htot : 0 ≤ total) :
    stepLoop step total ((⌊total / step⌋).toNat + 1) 0 =
      (List.range ((⌊total / step⌋).toNat + 1)).map (fun k : ℕ => step * (k : ℚ)) := by
  have h := stepLoop_eq step total hstep ((⌊total / step⌋).toNat + 1) 0
    (Or.inl ⟨by rw [sub_zero], htot⟩)
  rw [h, if_pos htot, sub_zero]
  have hfun : (fun k : ℕ => 0 + step * (k : ℚ)) = fun k : ℕ => step * (k : ℚ) := by
    funext k; ring
  rw [hfun]

/-- Every stepped distance lies in `[0, total]`. -/
theorem stepLoop_mem_bounds (step total : ℚ) (hstep : 0 < step) (htot : 0 ≤ total)
    {x : ℚ}
    (hx : x ∈ (List.range ((⌊total / step⌋).toNat + 1)).map (fun k : ℕ => step * (k : ℚ))) :
    0 ≤ x ∧ x ≤ total := by
  obtain ⟨k, hk, rfl⟩ := List.mem_map.mp hx
  rw [List.mem_range] at hk
  refine ⟨by positivity, ?_⟩
  have h0 : 0 ≤ ⌊total / step⌋ := Int.floor_nonneg.mpr (div_nonneg htot hstep.le)
  have hkk : (k : ℤ) ≤ ⌊total / step⌋ := by omega
  have hq : (k : ℚ) ≤ total / step := by exact_mod_cast Int.le_floor.mp hkk
  rw [le_div_iff hstep] at hq
  linarith

/-- Claim C7: with at least 2 vertices and a positive step,
`divide_by_length` succeeds and yields exactly `point_at(step * k)` for
`k = 0 .. ⌊length/step⌋`, i.e. `⌊length/step⌋ + 1` points; with
`force_last` it appends the final vertex exactly when the last stepped
point is not within tolerance of it.  On the length-7 L-shape with step
`2.5` this gives the points at distances `0, 2.5, 5`, plus the final
vertex with `force_last`. -/
theorem C7_divide_by_length (L : VecLib V) (vs : List V) (close : Bool)
    (tol step : ℚ) (p : ConstructionPolyline V)
    (hp : p = mkPolyline L vs close tol) (hv : 2 ≤ p.vertices.length)
    (hstep : 0 < step) :
    (∃ pts, p.divide_by_length L step false = .ok pts ∧
      pts.length = (⌊p.length / step⌋).toNat + 1 ∧
      ∀ i v, pts.get? i = some v → p.vertex_at L (step * (i : ℚ)) = .ok v) ∧
    (∀ pts, p.divide_by_length L step false = .ok pts →
      p.divide_by_length L step true =
        if L.isclose (pts.getLastD L.nullvec) (p.vertices.getLastD L.nullvec) REL_TOL
        then .ok pts
        else .ok (pts ++ [p.vertices.getLastD L.nullvec])) ∧
    lshapePoly.divide_by_length q2Lib (5 / 2) false =
      .ok [(0, 0), (5 / 2, 0), (3, 2)] ∧
    lshapePoly.divide_by_length q2Lib (5 / 2) true =
      .ok [(0, 0), (5 / 2, 0), (3, 2), (3, 4)] := by
  have hd : p.dists = listDistances L p.vertices := by rw [hp]; rfl
  have hne : p.vertices ≠ [] := by
    intro h; rw [h] at hv; simp at hv
  have hlen0 : 0 ≤ p.length := length_nonneg hd
  have hds := stepLoop_at_zero step p.length hstep hlen0
  have hall : ∀ x ∈ (List.range ((⌊p.length / step⌋).toNat + 1)).map
      (fun k : ℕ => step * (k : ℚ)), ∃ v, p.vertexAtFast L x = .ok v := by
    intro x hx
    obtain ⟨h0, h1⟩ := stepLoop_mem_bounds step p.length hstep hlen0 hx
    exact vertexAtFast_ok L p hd h0 h1 hne
  obtain ⟨pts, hpts, hlenpts, hrel⟩ :=
    mapM_ok_of_forall (fun d => p.vertexAtFast L d) _ hall
  have hfalse : p.divide_by_length L step false = .ok pts := by
    unfold ConstructionPolyline.divide_by_length
    rw [if_neg (by linarith), if_neg (by omega)]
    dsimp only
    rw [hds, hpts]
    simp
  have htrue : p.divide_by_length L step true =
      if L.isclose (pts.getLastD L.nullvec) (p.vertices.getLastD L.nullvec) REL_TOL
      then .ok pts
      else .ok (pts ++ [p.vertices.getLastD L.nullvec]) := by
    unfold ConstructionPolyline.divide_by_length
    rw [if_neg (by linarith), if_neg (by omega)]
    dsimp only
    rw [hds, hpts]
    have hgl : ∀ (l : List V) (x : V), l.getLastD x = l.getLast?.getD x := by
      intro l x; cases l <;> rfl
    by_cases hc : L.isclose (pts.getLastD L.nullvec)
        (p.vertices.getLastD L.nullvec) REL_TOL = true
    · rw [if_pos hc]
      rw [hgl, hgl] at hc
      simp [hc]
    · rw [if_neg hc]
      rw [hgl, hgl] at hc
      simp [hc, hgl]
  refine ⟨⟨pts, hfalse, ?_, ?_⟩, ?_, by decide, by decide⟩
  · rw [hlenpts]; simp
  · intro i v hvi
    have hilt : i < (⌊p.length / step⌋).toNat + 1 := by
      have := lt_length_of_get? pts i v hvi
      rw [hlenpts] at this
      simpa using this
    have hdsi : ((List.range ((⌊p.length / step⌋).toNat + 1)).map
        (fun k : ℕ => step * (k : ℚ))).get? i = some (step * (i : ℚ)) := by
      rw [List.get?_map, List.get?_range hilt]
      rfl
    obtain ⟨v', hv', hfv⟩ := hrel i _ hdsi
    have hvv : v' = v := by
      rw [hvi] at hv'
      exact (Option.some.inj hv').symm
    subst hvv
    have hmem : step * (i : ℚ) ∈ (List.range ((⌊p.length / step⌋).toNat + 1)).map
        (fun k : ℕ => step * (k : ℚ)) := List.get?_mem hdsi
    obtain ⟨hb0, hb1⟩ := stepLoop_mem_bounds step p.length hstep hlen0 hmem
    rw [vertex_at_eq_fast L p hb0 hb1 hv]
    exact hfv
  · intro pts' hpts'
    have hpp : pts' = pts := by
      rw [hfalse] at hpts'
      exact (Except.ok.inj hpts').symm
    subst hpp
    exact htrue

/-! ### Facts about the curve approximator -/

/-- Number of samples produced by the modelled `linspace`. -/
theorem linspace_length (start stop : ℚ) (num : ℕ) :
    (linspace start stop num).length = num := by
  unfold linspace
  by_cases h1 : num = 0
  · rw [if_pos h1, h1]; rfl
  · rw [if_neg h1]
    by_cases h2 : num = 1
    · rw [if_pos h2, h2]; rfl
    · rw [if_neg h2]; simp

/-- Without closing, the constructor keeps the vertex list unchanged. -/
theorem mkPolyline_vertices_open (L : VecLib V) (vs : List V) (tol : ℚ) :
    (mkPolyline L vs false tol).vertices = vs := by
  cases vs with
  | nil => rfl
  | cons v rest =>
      rw [mkPolyline_vertices_cases, if_neg (by simp)]

/-- The approximator's internal polyline, explicitly. -/
theorem approx_polyline_eq (L : VecLib V) (point : ℚ → V) (max_t : ℚ)
    (segments : ℕ) :
    (mkApproxParamT L point max_t segments).polyline =
      mkPolyline L ((linspace 0 max_t (segments + 1)).map point) false REL_TOL := rfl

/-- The approximator stores the parameter bound unchanged. -/
theorem approx_max_t_eq (L : VecLib V) (point : ℚ → V) (max_t : ℚ)
    (segments : ℕ) :
    (mkApproxParamT L point max_t segments).max_t = max_t := rfl

/-- The approximator's parameter step. -/
theorem approx_step_eq (L : VecLib V) (point : ℚ → V) (max_t : ℚ)
    (segments : ℕ) :
    (mkApproxParamT L point max_t segments).step = max_t / (segments : ℚ) := rfl

/-- The internal polyline has exactly `segments + 1` vertices. -/
theorem approx_vertices_length (L : VecLib V) (point : ℚ → V) (max_t : ℚ)
    (segments : ℕ) :
    (mkApproxParamT L point max_t segments).polyline.vertices.length
      = segments + 1 := by
  rw [approx_polyline_eq, mkPolyline_vertices_open, List.length_map,
    linspace_length]

/-- Full evaluation of `param_t` below the total length: the landing index,
its station data, the returned value, and the bracket facts the
monotonicity analysis needs. -/
theorem param_t_eval (L : VecLib V) (point : ℚ → V) (max_t : ℚ)
    (segments : ℕ) (hseg : 0 < segments) (d : ℚ)
    (hlt : d < (mkApproxParamT L point max_t segments).polyline.length) :
    ∃ i st d0 v,
      (mkApproxParamT L point max_t segments).polyline.index_at d = i ∧
      (mkApproxParamT L point max_t segments).polyline.data i = some (st, d0, v) ∧
      (mkApproxParamT L point max_t segments).param_t d =
        some (min max_t (if EPS12 < d0
          then max_t / (segments : ℚ) * (i : ℚ)
            - max_t / (segments : ℚ) * (st - d) / d0
          else max_t / (segments : ℚ) * (i : ℚ))) ∧
      i ≤ segments ∧
      (d ≤ 0 → i = 0 ∧ st = 0 ∧ d0 = 0) ∧
      (0 < d → 1 ≤ i ∧ 0 < d0 ∧ d ≤ st ∧ st - d0 < d) := by
  have hd : (mkApproxParamT L point max_t segments).polyline.dists =
      listDistances L (mkApproxParamT L point max_t segments).polyline.vertices := rfl
  have hvlen := approx_vertices_length L point max_t segments
  have hne : (mkApproxParamT L point max_t segments).polyline.vertices ≠ [] := by
    intro h; rw [h, List.length_nil] at hvlen; omega
  have hdlen : (mkApproxParamT L point max_t segments).polyline.dists.length
      = segments + 1 := by rw [dists_length_eq hd, hvlen]
  have hilt := index_at_lt_length hd hne d
  have hiseg : (mkApproxParamT L point max_t segments).polyline.index_at d
      ≤ segments := by omega
  by_cases hneg : d ≤ 0
  · have hI : (mkApproxParamT L point max_t segments).polyline.index_at d = 0 := by
      unfold ConstructionPolyline.index_at
      rw [if_pos hneg]
    obtain ⟨v0, hv0, hdata⟩ := data_zero hne
    refine ⟨0, 0, 0, v0, hI, hdata, ?_, by omega,
      fun _ => ⟨rfl, rfl, rfl⟩, fun hpos => absurd hpos (by linarith)⟩
    unfold ApproxParamT.param_t
    rw [if_neg (by linarith :
      ¬ (mkApproxParamT L point max_t segments).polyline.length ≤ d)]
    dsimp only
    rw [hI, hdata]
    rfl
  · push_neg at hneg
    have hI : (mkApproxParamT L point max_t segments).polyline.index_at d =
        bisectLeft (mkApproxParamT L point max_t segments).polyline.dists d := by
      unfold ConstructionPolyline.index_at ConstructionPolyline.indexAtFast
      rw [if_neg (by linarith), if_neg (by linarith :
        ¬ (mkApproxParamT L point max_t segments).polyline.length ≤ d)]
    have h1le : 1 ≤ bisectLeft
        (mkApproxParamT L point max_t segments).polyline.dists d :=
      bisect_ge_one hd hne hneg
    have hrlen : bisectLeft
        (mkApproxParamT L point max_t segments).polyline.dists d <
        (mkApproxParamT L point max_t segments).polyline.dists.length := by
      rw [← hI]; exact hilt
    obtain ⟨pd, cd, v, hpd, hcd, hv, hdata⟩ := data_succ hd h1le hrlen
    obtain ⟨hlow, hup⟩ := bisect_bracket hd h1le hrlen
    rw [getD_of_get? hpd] at hlow
    rw [getD_of_get? hcd] at hup
    rw [hI] at hiseg
    refine ⟨bisectLeft (mkApproxParamT L point max_t segments).polyline.dists d,
      cd, cd - pd, v, hI, hdata, ?_, hiseg,
      fun hcon => absurd hcon (by linarith),
      fun _ => ⟨h1le, by linarith, by linarith, by linarith⟩⟩
    unfold ApproxParamT.param_t
    rw [if_neg (by linarith :
      ¬ (mkApproxParamT L point max_t segments).polyline.length ≤ d)]
    dsimp only
    rw [hI, hdata]
    rfl

/-- Claim C5: `distance_at` returns `0` for `t ≤ 0`; the internal
polyline's total length for (positive) `t` at least `max_t`; and otherwise
`station - delta * (step * index - t) / step` where
`index = floor(t / step) + 1` and `(station, delta, _)` is the station
data at that index. -/
theorem C5_distance (L : VecLib V) (point : ℚ → V) (max_t : ℚ) (segments : ℕ)
    (a : ApproxParamT V) (ha : a = mkApproxParamT L point max_t segments)
    (hseg : 0 < segments) (t : ℚ) :
    (t ≤ 0 → a.distance t = some 0) ∧
    (0 < t → a.max_t ≤ t → a.distance t = some a.polyline.length) ∧
    (0 < t → t < a.max_t → ∃ station d0 v,
      a.polyline.data ((⌊t / a.step⌋).toNat + 1) = some (station, d0, v) ∧
      a.distance t = some (station -
        d0 * (a.step * ((((⌊t / a.step⌋).toNat + 1 : ℕ) : ℚ)) - t) / a.step)) := by
  subst ha
  have hd : (mkApproxParamT L point max_t segments).polyline.dists =
      listDistances L (mkApproxParamT L point max_t segments).polyline.vertices := rfl
  have hvlen := approx_vertices_length L point max_t segments
  have hdlen : (mkApproxParamT L point max_t segments).polyline.dists.length
      = segments + 1 := by rw [dists_length_eq hd, hvlen]
  refine ⟨?_, ?_, ?_⟩
  · intro h
    unfold ApproxParamT.distance
    rw [if_pos h]
  · intro h1 h2
    unfold ApproxParamT.distance
    rw [if_neg (by linarith), if_pos h2]
  · intro h1 h2
    rw [approx_max_t_eq] at h2
    have hmt : 0 < max_t := lt_trans h1 h2
    have hstep : 0 < (mkApproxParamT L point max_t segments).step := by
      rw [approx_step_eq]
      positivity
    have hsegmul : ((segments : ℚ)) *
        (mkApproxParamT L point max_t segments).step = max_t := by
      rw [approx_step_eq]
      field_simp
    have hfl : ⌊t / (mkApproxParamT L point max_t segments).step⌋
        < (segments : ℤ) := by
      rw [Int.floor_lt]
      push_cast
      rw [div_lt_iff hstep]
      linarith
    have hfl0 : 0 ≤ ⌊t / (mkApproxParamT L point max_t segments).step⌋ :=
      Int.floor_nonneg.mpr (div_nonneg h1.le hstep.le)
    obtain ⟨pd, cd, v, hpd, hcd, hv, hdata⟩ := data_succ hd
      (i := (⌊t / (mkApproxParamT L point max_t segments).step⌋).toNat + 1)
      (by omega) (by omega)
    refine ⟨cd, cd - pd, v, hdata, ?_⟩
    unfold ApproxParamT.distance
    rw [if_neg (by linarith), if_neg (by rw [approx_max_t_eq]; linarith)]
    dsimp only
    rw [hdata]

/-- Claim C6: `param_t` never exceeds `max_t`; every distance at least the
internal polyline's length maps to exactly `max_t`; and `param_t` is
monotone non-decreasing in the distance. -/
theorem C6_param_t (L : VecLib V) (point : ℚ → V) (max_t : ℚ) (segments : ℕ)
    (a : ApproxParamT V) (ha : a = mkApproxParamT L point max_t segments)
    (hseg : 0 < segments) :
    (∀ d t', a.param_t d = some t' → t' ≤ a.max_t) ∧
    (∀ d, a.polyline.length ≤ d → a.param_t d = some a.max_t) ∧
    (∀ d1 d2, d1 ≤ d2 →
      ∃ t1 t2, a.param_t d1 = some t1 ∧ a.param_t d2 = some t2 ∧ t1 ≤ t2) := by
  subst ha
  have hd : (mkApproxParamT L point max_t segments).polyline.dists =
      listDistances L (mkApproxParamT L point max_t segments).polyline.vertices := rfl
  have hvlen := approx_vertices_length L point max_t segments
  have hne : (mkApproxParamT L point max_t segments).polyline.vertices ≠ [] := by
    intro h; rw [h, List.length_nil] at hvlen; omega
  have hbound : ∀ d t',
      (mkApproxParamT L point max_t segments).param_t d = some t' →
      t' ≤ (mkApproxParamT L point max_t segments).max_t := by
    intro d t' hpt
    unfold ApproxParamT.param_t at hpt
    by_cases hge : (mkApproxParamT L point max_t segments).polyline.length ≤ d
    · rw [if_pos hge] at hpt
      exact le_of_eq (Option.some.inj hpt).symm
    · rw [if_neg hge] at hpt
      dsimp only at hpt
      cases hdata : (mkApproxParamT L point max_t segments).polyline.data
          ((mkApproxParamT L point max_t segments).polyline.index_at d) with
      | none => rw [hdata] at hpt; exact Option.noConfusion hpt
      | some trip =>
          obtain ⟨st, d0, v⟩ := trip
          rw [hdata] at hpt
          dsimp only at hpt
          rw [← Option.some.inj hpt]
          exact min_le_left _ _
  refine ⟨hbound, ?_, ?_⟩
  · intro d hge
    unfold ApproxParamT.param_t
    rw [if_pos hge]
  · intro d1 d2 h12
    by_cases hge1 : (mkApproxParamT L point max_t segments).polyline.length ≤ d1
    · have hge2 : (mkApproxParamT L point max_t segments).polyline.length ≤ d2 :=
        le_trans hge1 h12
      refine ⟨(mkApproxParamT L point max_t segments).max_t,
        (mkApproxParamT L point max_t segments).max_t, ?_, ?_, le_refl _⟩ <;>
        · unfold ApproxParamT.param_t
          rw [if_pos (by assumption)]
    · have hlt1 : d1 < (mkApproxParamT L point max_t segments).polyline.length :=
        not_le.mp hge1
      obtain ⟨i1, st1, d01, v1, hI1, hD1, hP1, hi1seg, hneg1, hpos1⟩ :=
        param_t_eval L point max_t segments hseg d1 hlt1
      by_cases hge2 : (mkApproxParamT L point max_t segments).polyline.length ≤ d2
      · refine ⟨_, (mkApproxParamT L point max_t segments).max_t, hP1, ?_, ?_⟩
        · unfold ApproxParamT.param_t
          rw [if_pos hge2]
        · rw [approx_max_t_eq]
          exact min_le_left _ _
      · have hlt2 : d2 < (mkApproxParamT L point max_t segments).polyline.length :=
          not_le.mp hge2
        obtain ⟨i2, st2, d02, v2, hI2, hD2, hP2, hi2seg, hneg2, hpos2⟩ :=
          param_t_eval L point max_t segments hseg d2 hlt2
        rcases le_or_lt 0 (max_t / (segments : ℚ)) with hS | hS
        · -- non-negative step: the raw estimate is monotone
          have hii : i1 ≤ i2 := by
            rw [← hI1, ← hI2]
            exact index_at_mono hd hne h12
          refine ⟨_, _, hP1, hP2, min_le_min (le_refl max_t) ?_⟩
          rcases eq_or_lt_of_le hii with heq | hlt12
          · subst heq
            rw [hD1] at hD2
            obtain ⟨hst, hd0, _⟩ : st2 = st1 ∧ d02 = d01 ∧ v2 = v1 := by
              have := Option.some.inj hD2
              simpa [Prod.ext_iff] using this.symm
            rw [hst, hd0]
            by_cases heps : EPS12 < d01
            · rw [if_pos heps, if_pos heps]
              have hd01pos : 0 < d01 :=
                lt_trans (by norm_num [EPS12]) heps
              have hnum : max_t / (segments : ℚ) * (st1 - d2)
                  ≤ max_t / (segments : ℚ) * (st1 - d1) :=
                mul_le_mul_of_nonneg_left (by linarith) hS
              have hdiv := (div_le_div_right hd01pos).mpr hnum
              linarith
            · rw [if_neg heps, if_neg heps]
          · have h2pos : 0 < d2 := by
              by_contra hcon
              push_neg at hcon
              obtain ⟨hi20, _, _⟩ := hneg2 hcon
              omega
            obtain ⟨hi21, hd02pos, hd2st, hst2d⟩ := hpos2 h2pos
            have hT1le : (if EPS12 < d01
                then max_t / (segments : ℚ) * (i1 : ℚ)
                  - max_t / (segments : ℚ) * (st1 - d1) / d01
                else max_t / (segments : ℚ) * (i1 : ℚ))
                ≤ max_t / (segments : ℚ) * (i1 : ℚ) := by
              by_cases heps : EPS12 < d01
              · rw [if_pos heps]
                have hd01pos : 0 < d01 :=
                  lt_trans (by norm_num [EPS12]) heps
                have h1pos : 0 < d1 := by
                  by_contra hcon
                  push_neg at hcon
                  obtain ⟨_, _, h00⟩ := hneg1 hcon
                  rw [h00] at heps
                  norm_num [EPS12] at heps
                obtain ⟨_, _, hd1st, _⟩ := hpos1 h1pos
                have hc0 : 0 ≤ max_t / (segments : ℚ) * (st1 - d1) / d01 :=
                  div_nonneg (mul_nonneg hS (by linarith)) hd01pos.le
                linarith
              · rw [if_neg heps]
            have hT2ge : max_t / (segments : ℚ) * (i2 : ℚ)
                - max_t / (segments : ℚ)
                ≤ (if EPS12 < d02
                  then max_t / (segments : ℚ) * (i2 : ℚ)
                    - max_t / (segments : ℚ) * (st2 - d2) / d02
                  else max_t / (segments : ℚ) * (i2 : ℚ)) := by
              by_cases heps : EPS12 < d02
              · rw [if_pos heps]
                have hc1 : max_t / (segments : ℚ) * (st2 - d2) / d02
                    ≤ max_t / (segments : ℚ) := by
                  rw [mul_div_assoc]
                  apply mul_le_of_le_one_right hS
                  rw [div_le_one hd02pos]
                  linarith
                linarith
              · rw [if_neg heps]
                linarith
            have hc : (i1 : ℚ) ≤ (i2 : ℚ) - 1 := by
              have hcc : (i1 : ℚ) + 1 ≤ (i2 : ℚ) := by
                exact_mod_cast hlt12
              linarith
            have hchain := mul_le_mul_of_nonneg_left hc hS
            rw [mul_sub, mul_one] at hchain
            linarith
        · -- negative step: the clamp pins everything at `max_t`
          have hmt : max_t / (segments : ℚ) * (segments : ℚ) = max_t :=
            div_mul_cancel₀ max_t (by exact_mod_cast hseg.ne')
          have hTge : ∀ (d : ℚ) (i : ℕ) (st d0 : ℚ),
              (d ≤ 0 → i = 0 ∧ st = 0 ∧ d0 = 0) →
              (0 < d → 1 ≤ i ∧ 0 < d0 ∧ d ≤ st ∧ st - d0 < d) →
              i ≤ segments →
              max_t ≤ (if EPS12 < d0
                then max_t / (segments : ℚ) * (i : ℚ)
                  - max_t / (segments : ℚ) * (st - d) / d0
                else max_t / (segments : ℚ) * (i : ℚ)) := by
            intro d i st d0 hneg hpos hiseg
            have hSi : max_t ≤ max_t / (segments : ℚ) * (i : ℚ) := by
              conv_lhs => rw [← hmt]
              have hcast : (i : ℚ) ≤ (segments : ℚ) := by exact_mod_cast hiseg
              exact mul_le_mul_of_nonpos_left hcast hS.le
            by_cases heps : EPS12 < d0
            · rw [if_pos heps]
              have hd0pos : 0 < d0 := lt_trans (by norm_num [EPS12]) heps
              have hdpos : 0 < d := by
                by_contra hcon
                push_neg at hcon
                obtain ⟨_, _, h00⟩ := hneg hcon
                rw [h00] at heps
                norm_num [EPS12] at heps
              obtain ⟨_, _, hdst, _⟩ := hpos hdpos
              have hfrac : 0 ≤ (st - d) / d0 :=
                div_nonneg (by linarith) hd0pos.le
              have hcorr : max_t / (segments : ℚ) * (st - d) / d0 ≤ 0 := by
                rw [mul_div_assoc]
                nlinarith
              linarith
            · rw [if_neg heps]
              exact hSi
          have hT1 := hTge d1 i1 st1 d01 hneg1 hpos1 hi1seg
          have hT2 := hTge d2 i2 st2 d02 hneg2 hpos2 hi2seg
          refine ⟨_, _, hP1, hP2, ?_⟩
          rw [min_eq_left hT1, min_eq_left hT2]

/-- Claim C10 counterexample: an approximator with `max_t = -1` over a
curve of positive internal length returns `min(max_t, 0) = -1`, not `0`,
for a negative distance. -/
theorem C10_cex :
    (0 : ℚ) < negApprox.polyline.length ∧
    negApprox.param_t (-1) = some (-1) ∧
    ¬ negApprox.param_t (-1) = some 0 := ⟨by decide, by decide, by decide⟩

/-- Claim C10 as amended: for an approximator whose internal polyline has
positive length, `param_t` of any non-positive distance is exactly
`min(max_t, 0)` — the clamped index `0` yields station `0` and delta `0`,
so no correction is applied and only the final `min` clamp acts; for
`max_t ≥ 0` this is `0`. -/
theorem C10_amended (L : VecLib V) (point : ℚ → V) (max_t : ℚ) (segments : ℕ)
    (a : ApproxParamT V) (ha : a = mkApproxParamT L point max_t segments)
    (hseg : 0 < segments) (hlen : 0 < a.polyline.length) (d : ℚ) (hd : d ≤ 0) :
    a.param_t d = some (min a.max_t 0) := by
  subst ha
  obtain ⟨i, st, d0, v, hI, hD, hP, _, hneg, _⟩ :=
    param_t_eval L point max_t segments hseg d (lt_of_le_of_lt hd hlen)
  obtain ⟨hi0, hst0, hd00⟩ := hneg hd
  subst hi0
  subst hd00
  rw [hP, if_neg (by norm_num [EPS12]), approx_max_t_eq]
  norm_num

/-- Witness for C1 at the L-shape polyline and distance `1.5`. -/
theorem C1_witness :
    (0 : ℚ) < 3 / 2 ∧ (3 / 2 : ℚ) < lshapePoly.length ∧
    (lshapePoly.index_at (3 / 2) < lshapePoly.dists.length ∧
      (∀ dj, lshapePoly.dists.get? (lshapePoly.index_at (3 / 2)) = some dj →
        3 / 2 ≤ dj) ∧
      (∀ j, j < lshapePoly.index_at (3 / 2) →
        ∀ dj, lshapePoly.dists.get? j = some dj → dj < 3 / 2)) :=
  ⟨by decide, by decide,
    (C1_index_at q2Lib [(0, 0), (3, 0), (3, 4)] false REL_TOL lshapePoly rfl
      (3 / 2)).2.2 (by decide) (by decide)⟩

/-- Witness for C3 at the L-shape polyline and distance `5`. -/
theorem C3_witness :
    (0 : ℚ) ≤ 5 ∧ (5 : ℚ) ≤ lshapePoly.length ∧ 2 ≤ lshapePoly.vertices.length ∧
    ∃ v, lshapePoly.vertex_at q2Lib 5 = .ok v :=
  ⟨by decide, by decide, by decide,
    (C3_vertex_at_errors q2Lib [(0, 0), (3, 0), (3, 4)] false REL_TOL lshapePoly
      rfl 5).2.2 (by decide) (by decide) (by decide)⟩

/-- Witness for C4 at the L-shape polyline. -/
theorem C4_witness :
    lshapePoly.dists.Pairwise (· ≤ ·) ∧ (0 : ℚ) ≤ lshapePoly.length ∧
    ∃ d0, lshapePoly.dists.get? 1 = some d0 ∧
      lshapePoly.dists.get? 2 = some (d0 + q2Lib.magnitude (q2Lib.sub (3, 4) (3, 0))) :=
  ⟨(C4_distances_invariant q2Lib [(0, 0), (3, 0), (3, 4)] false REL_TOL
      lshapePoly rfl).2.2.2.1,
    (C4_distances_invariant q2Lib [(0, 0), (3, 0), (3, 4)] false REL_TOL
      lshapePoly rfl).2.2.2.2,
    (C4_distances_invariant q2Lib [(0, 0), (3, 0), (3, 4)] false REL_TOL
      lshapePoly rfl).2.2.1 1 (3, 0) (3, 4) (by decide) (by decide)⟩

/-- Witness for C5 on the straight-line approximator at `t = 1/4`. -/
theorem C5_witness :
    (0 : ℚ) < 1 / 4 ∧ (1 / 4 : ℚ) < lineApprox.max_t ∧
    ∃ station d0 v,
      lineApprox.polyline.data ((⌊(1 / 4 : ℚ) / lineApprox.step⌋).toNat + 1)
        = some (station, d0, v) ∧
      lineApprox.distance (1 / 4) = some (station -
        d0 * (lineApprox.step *
          ((((⌊(1 / 4 : ℚ) / lineApprox.step⌋).toNat + 1 : ℕ) : ℚ)) - 1 / 4)
          / lineApprox.step) :=
  ⟨by decide, by decide,
    (C5_distance q2Lib lineCurve 1 2 lineApprox rfl (by decide) (1 / 4)).2.2
      (by decide) (by decide)⟩

/-- Witness for C6 on the straight-line approximator. -/
theorem C6_witness :
    ∃ t1 t2, lineApprox.param_t (1 / 4) = some t1 ∧
      lineApprox.param_t (1 / 2) = some t2 ∧ t1 ≤ t2 :=
  (C6_param_t q2Lib lineCurve 1 2 lineApprox rfl (by decide)).2.2
    (1 / 4) (1 / 2) (by decide)

/-- Witness for C7 at the L-shape polyline and step `2.5`. -/
theorem C7_witness :
    2 ≤ lshapePoly.vertices.length ∧ (0 : ℚ) < 5 / 2 ∧
    ∃ pts, lshapePoly.divide_by_length q2Lib (5 / 2) false = .ok pts ∧
      pts.length = (⌊lshapePoly.length / (5 / 2)⌋).toNat + 1 ∧
      ∀ i v, pts.get? i = some v →
        lshapePoly.vertex_at q2Lib ((5 / 2) * (i : ℚ)) = .ok v :=
  ⟨by decide, by decide,
    (C7_divide_by_length q2Lib [(0, 0), (3, 0), (3, 4)] false REL_TOL (5 / 2)
      lshapePoly rfl (by decide) (by decide)).1⟩

/-- Witness for C9 at the L-shape polyline. -/
theorem C9_witness :
    lshapePoly.vertex_at q2Lib 100 ≠ .error .internalInconsistency ∧
    lshapePoly.divide q2Lib 3 ≠ .error .internalInconsistency ∧
    lshapePoly.divide_by_length q2Lib 2 true ≠ .error .internalInconsistency :=
  ⟨(C9_internal_error_unreachable q2Lib [(0, 0), (3, 0), (3, 4)] false REL_TOL
      lshapePoly rfl).1 100,
    (C9_internal_error_unreachable q2Lib [(0, 0), (3, 0), (3, 4)] false REL_TOL
      lshapePoly rfl).2.1 3,
    (C9_internal_error_unreachable q2Lib [(0, 0), (3, 0), (3, 4)] false REL_TOL
      lshapePoly rfl).2.2 2 true⟩

/-- Witness for the amended C10 on the straight-line approximator. -/
theorem C10_amended_witness :
    0 < 2 ∧ (0 : ℚ) < lineApprox.polyline.length ∧ (-1 : ℚ) ≤ 0 ∧
    lineApprox.param_t (-1) = some (min lineApprox.max_t 0) :=
  ⟨by decide, by decide, by decide,
    C10_amended q2Lib lineCurve 1 2 lineApprox rfl (by decide) (by decide)
      (-1) (by decide)⟩


end Polyline
